import Mathlib

/-!
Verification of the word-level LSTM training/generation script
(`humor/basic_lstm.py`) against its design specification.

The Python code is shallowly embedded: Python strings become `List Char`
(`PyStr`), Python dicts become association lists or `Option`-valued
lookup functions, `collections.Counter(words).most_common()` becomes a
stable insertion sort by descending count over the first-occurrence key
order (CPython dicts preserve insertion order and `sorted` is stable),
and floating-point losses/embedding coordinates become rationals.
-/

namespace HumorLstm

/-- Python strings are modelled as lists of characters. -/
abbrev PyStr := List Char

/-- Modelled from the spec: the synthetic start-of-sentence marker token from
the repository's `word_embeddings` module (not present under `src/`); the spec
fixes only that the three markers are distinct synthetic (non-corpus,
nonempty, space-free) tokens. -/
def START_TOKEN : PyStr := ['<', 's', '>']

/-- Modelled from the spec: the synthetic end-of-sentence marker token from
the missing `word_embeddings` module. -/
def END_TOKEN : PyStr := ['<', '/', 's', '>']

/-- Modelled from the spec: the synthetic unknown-word marker token from
the missing `word_embeddings` module. -/
def UNKNOWN_TOKEN : PyStr := ['<', 'u', 'n', 'k', '>']

/-- `N_INPUT` from the script: size of the sliding window of prior tokens. -/
def N_INPUT : Nat := 3

/-- `BATCH_SIZE` from the script: number of steps per reporting batch. -/
def BATCH_SIZE : Nat := 1000

/-- `GENERATE_INCREMENT` from the script: cadence of the fallback save. -/
def GENERATE_INCREMENT : Nat := 10000

section Vocab

variable {α : Type} [DecidableEq α]

/-- Index of the first occurrence of `w` in `l` (CPython dict insertion
position; equals `l.length` if absent). -/
def firstIdx : List α → α → Nat
  | [], _ => 0
  | v :: vs, w => if v = w then 0 else firstIdx vs w + 1

/-- The distinct elements of `l` in first-occurrence order: the key order of
`collections.Counter(words)` (a CPython dict preserves insertion order). -/
def dedupFirst : List α → List α
  | [] => []
  | w :: ws => w :: (dedupFirst ws).filter (fun v => decide (v ≠ w))

/-- Insert `w` into a count-descending list, before the first element whose
count does not exceed `w`'s: one step of a stable descending sort, as done by
CPython's stable `sorted(..., reverse=True)` inside `Counter.most_common`. -/
def insertDesc (cnt : α → Nat) (w : α) : List α → List α
  | [] => [w]
  | v :: vs => if cnt v ≤ cnt w then w :: v :: vs else v :: insertDesc cnt w vs

/-- Stable sort by descending `cnt`. -/
def sortDesc (cnt : α → Nat) : List α → List α
  | [] => []
  | w :: ws => insertDesc cnt w (sortDesc cnt ws)

/-- The key order of `collections.Counter(words).most_common()`: distinct
tokens of `words`, sorted by descending multiplicity, ties kept in
first-occurrence order. -/
def build_vocab (words : List α) : List α :=
  sortDesc (fun w => words.count w) (dedupFirst words)

/-- `dictionary` built by `build_dataset`: each word of the `most_common` key
list is mapped to its position (`dictionary[word] = len(dictionary)`). -/
def dictionary (words : List α) (w : α) : Option Nat :=
  if w ∈ build_vocab words then some (firstIdx (build_vocab words) w) else none

/-- `reverse_dictionary` built by `build_dataset`: position to word. -/
def reverse_dictionary (words : List α) (i : Nat) : Option α :=
  (build_vocab words)[i]?

/-- `len(dictionary)`: the vocabulary size. -/
def vocab_size (words : List α) : Nat :=
  (build_vocab words).length

/-- `build_dataset` returns the two mappings. -/
def build_dataset (words : List α) : (α → Option Nat) × (Nat → Option α) :=
  (dictionary words, reverse_dictionary words)

/-- The rank order realised by `Counter.most_common`: `u` comes before `v`
when its count is larger, or the counts tie and `u`'s first occurrence
(under the key function `f`) is earlier. -/
def rankLt (cnt f : α → Nat) (u v : α) : Prop :=
  cnt v < cnt u ∨ (cnt u = cnt v ∧ f u < f v)

end Vocab

section Generation

/-- The accept/reject loop of `generate_sentence` drawing `rand_key` until it
differs from the start and end keys, applied to an explicit stream of random
draws (`none` when the stream runs out before a draw is accepted). -/
def pickRand (start_key end_key : Nat) : List Nat → Option Nat
  | [] => none
  | d :: ds =>
    if d = start_key ∨ d = end_key then pickRand start_key end_key ds else some d

/-- The initial decoding window: `N_INPUT - 1` copies of the start key
(`[start_key for i in range(N_INPUT - 1)]`) followed by the accepted draw. -/
def seedSymbols (start_key rand_key : Nat) : List Nat :=
  (List.range (N_INPUT - 1)).map (fun _ => start_key) ++ [rand_key]

/-- The decoding loop of `generate_sentence`: at iteration `i` the trailing
window `symbols_in_keys[i:]` is fed through the network (abstracted as
`predict`); the loop breaks on the end key and otherwise appends the
prediction. `fuel` is the number of remaining `range(sentence_length)`
iterations. -/
def genLoop (predict : List Nat → Nat) (end_key : Nat) : Nat → Nat → List Nat → List Nat
  | _, 0, keys => keys
  | i, fuel + 1, keys =>
    if predict (keys.drop i) = end_key then keys
    else genLoop predict end_key (i + 1) fuel (keys ++ [predict (keys.drop i)])

/-- `generate_sentence` up to rendering: the decoded list of word indices. -/
def generate_indices (predict : List Nat → Nat)
    (start_key end_key sentence_length : Nat) (draws : List Nat) : Option (List Nat) :=
  (pickRand start_key end_key draws).map
    (fun r => genLoop predict end_key 0 sentence_length (seedSymbols start_key r))

/-- `convert_indices_to_sentence`, at the level of the list of rendered words:
start keys are skipped and every other key is looked up in
`reverse_dictionary`. -/
def convertWords (rev : Nat → Option PyStr) (start_key : Nat) (keys : List Nat) : List PyStr :=
  (keys.filter (fun k => decide (k ≠ start_key))).filterMap rev

end Generation

section Embeddings

variable {α β : Type} [DecidableEq α]

/-- Association-list lookup, first binding wins (a Python dict access). -/
def alookup : List (α × β) → α → Option β
  | [], _ => none
  | (k, v) :: rest, w => if k = w then some v else alookup rest w

/-- The `for word, index in dictionary.items()` loop of `run` building
`index_embeddings`, with `i` the index of the first remaining word. -/
def index_embeddings_from (emb : List (α × β)) (unk : β) : Nat → List α → List (Nat × β)
  | _, [] => []
  | i, w :: ws => (i, (alookup emb w).getD unk) :: index_embeddings_from emb unk (i + 1) ws

/-- `index_embeddings` of `run`: every vocabulary word is mapped (through its
index) to its pretrained vector, or to the unknown word's vector when it is
absent from the table; `none` models the fatal `KeyError` raised when the
unknown token itself has no vector. -/
def build_index_embeddings (emb : List (PyStr × β)) (vocabL : List PyStr) :
    Option (List (Nat × β)) :=
  (alookup emb UNKNOWN_TOKEN).map (fun unk => index_embeddings_from emb unk 0 vocabL)

/-- The `for word, embedding in embeddings_dict.items()` loop of `run`
building `embeddings_list` (the matched vectors, in table order) and
`embedding_order` (row order to vocabulary index). -/
def build_embeddings_list (emb : List (PyStr × β)) (words : List PyStr) :
    List β × List (Nat × Nat) :=
  emb.foldl
    (fun acc p =>
      if p.1 ∈ build_vocab words then
        (acc.1 ++ [p.2], acc.2 ++ [(acc.2.length, firstIdx (build_vocab words) p.1)])
      else acc)
    ([], [])

/-- `np.argmin`: first index of the minimum entry (0 on the empty list). -/
def argminIdx : List ℚ → Nat
  | [] => 0
  | x :: xs =>
    if xs.getD (argminIdx xs) x < x then argminIdx xs + 1 else 0

/-- `tf.argmax` on a single row: first index of the maximum entry. -/
def argmaxIdx : List ℚ → Nat
  | [] => 0
  | x :: xs =>
    if x < xs.getD (argmaxIdx xs) x then argmaxIdx xs + 1 else 0

/-- Squared Euclidean distance between two coordinate lists. -/
def distSq (u v : List ℚ) : ℚ :=
  (u.zipWith (fun a b => (a - b) * (a - b)) v).sum

/-- `np.linalg.norm(embeddings_list - pred_output, axis=0)`, squared: one
entry per coordinate `j`, namely the squared norm down column `j` of the
row-by-row difference matrix. Squaring preserves every `argmin` because the
square root is strictly monotone on nonnegative reals. -/
def colNormsSq (M : List (List ℚ)) (p : List ℚ) : List ℚ :=
  (List.range p.length).map
    (fun j => (M.map (fun row => (row.getD j 0 - p.getD j 0) * (row.getD j 0 - p.getD j 0))).sum)

/-- The script's embedding-mode predicted index:
`embedding_order[np.argmin(np.linalg.norm(embeddings_list - pred_output, axis=0))]`,
with `none` modelling the `KeyError` raised when the argmin is no row order. -/
def pred_index_embedding (embeddings_list : List (List ℚ))
    (embedding_order : List (Nat × Nat)) (pred_output : List ℚ) : Option Nat :=
  alookup embedding_order (argminIdx (colNormsSq embeddings_list pred_output))

/-- Worded from the specification, for comparison with the code: the
vocabulary index of the embedding-table row whose vector is nearest to the
predicted vector in Euclidean distance. -/
def nearest_row_index (embeddings_list : List (List ℚ))
    (embedding_order : List (Nat × Nat)) (pred_output : List ℚ) : Option Nat :=
  alookup embedding_order (argminIdx (embeddings_list.map (fun row => distSq row pred_output)))

end Embeddings

section Corpus

/-- Python `s.split(' ')` with an explicit separator: split at every single
space, keeping the empty pieces between and around separators. -/
def splitSp : List Char → List PyStr
  | [] => [[]]
  | c :: cs =>
    if c = ' ' then [] :: splitSp cs
    else
      match splitSp cs with
      | [] => [[c]]
      | t :: ts => (c :: t) :: ts

/-- `start_tokens`: `N_INPUT` copies of the start marker, each followed by a
space. -/
def start_tokens_str : PyStr :=
  (List.range N_INPUT).foldl (fun acc _ => acc ++ START_TOKEN ++ [' ']) []

/-- One iteration of the corpus-reading loop of `run`: a newline-stripped
blank line is skipped; every other line is appended as
`start_tokens + line + ' ' + END_TOKEN + ' '`. -/
def punch_step (acc line : PyStr) : PyStr :=
  if line = [] then acc
  else acc ++ start_tokens_str ++ line ++ [' '] ++ END_TOKEN ++ [' ']

/-- The accumulated `punch_lines` string over the whole corpus file. -/
def punch_lines (lines : List PyStr) : PyStr :=
  lines.foldl punch_step []

/-- `words = punch_lines.split(' ')`. -/
def corpus_words (lines : List PyStr) : List PyStr :=
  splitSp (punch_lines lines)

end Corpus

section Training

/-- The mutable training-loop state: `batch_counter`, the accumulated
`total_loss`, and the running minimum loss (`none` is the initial
`float('inf')`). -/
structure TrainState where
  batch_counter : Nat
  total_loss : ℚ
  min_loss : Option ℚ
deriving DecidableEq

/-- Which checkpoint, if any, a step persists: to the model path or to the
final path. -/
inductive SaveEvent where
  | model : SaveEvent
  | final : SaveEvent
deriving DecidableEq

/-- The gate `min_loss.eval() > current_loss`, with `min_loss` initialised to
infinity (modelled by `none`). -/
def improvesB : Option ℚ → ℚ → Bool
  | none, _ => true
  | some m, c => decide (c < m)

/-- Comparison of running minima, `none` again standing for infinity. -/
def minLe : Option ℚ → Option ℚ → Prop
  | _, none => True
  | none, some _ => False
  | some x, some y => x ≤ y

/-- One optimizer step of the training loop: accumulate the step loss; at a
batch boundary compute the mean over the batch, save to the model path when
the mean beats the running minimum (updating it), otherwise save to the final
path on the `GENERATE_INCREMENT` cadence; reset the accumulator at every
boundary. -/
def train_step (offset : Nat) (loss : ℚ) (st : TrainState) : TrainState × Option SaveEvent :=
  let total := st.total_loss + loss
  let bc := st.batch_counter + 1
  if BATCH_SIZE ≤ bc then
    let current := total / (BATCH_SIZE : ℚ)
    if improvesB st.min_loss current then
      (⟨0, 0, some current⟩, some SaveEvent.model)
    else if offset % GENERATE_INCREMENT = GENERATE_INCREMENT - 1 then
      (⟨0, 0, st.min_loss⟩, some SaveEvent.final)
    else
      (⟨0, 0, st.min_loss⟩, none)
  else
    (⟨bc, total, st.min_loss⟩, none)

/-- Folding `train_step` over a stream of `(offset, loss)` pairs. -/
def train_run (steps : List (Nat × ℚ)) (st : TrainState) : TrainState :=
  steps.foldl (fun s p => (train_step p.1 p.2 s).1) st

end Training

section VocabLemmas

variable {α : Type} [DecidableEq α]

theorem insertDesc_perm (cnt : α → Nat) (w : α) (l : List α) :
    (insertDesc cnt w l).Perm (w :: l) := by
  induction l with
  | nil => simp [insertDesc]
  | cons v vs ih =>
    simp only [insertDesc]
    split
    · exact List.Perm.refl _
    · exact (ih.cons v).trans (List.Perm.swap w v vs)

theorem sortDesc_perm (cnt : α → Nat) (l : List α) : (sortDesc cnt l).Perm l := by
  induction l with
  | nil => simp [sortDesc]
  | cons w ws ih =>
    simpa only [sortDesc] using (insertDesc_perm cnt w (sortDesc cnt ws)).trans (ih.cons w)

theorem mem_insertDesc {cnt : α → Nat} {w u : α} {l : List α} :
    u ∈ insertDesc cnt w l ↔ u = w ∨ u ∈ l := by
  rw [(insertDesc_perm cnt w l).mem_iff]
  simp

theorem mem_dedupFirst {l : List α} {u : α} : u ∈ dedupFirst l ↔ u ∈ l := by
  induction l with
  | nil => simp [dedupFirst]
  | cons w ws ih =>
    simp only [dedupFirst, List.mem_cons, List.mem_filter, ih, decide_eq_true_eq]
    constructor
    · rintro (rfl | ⟨h, _⟩)
      · exact Or.inl rfl
      · exact Or.inr h
    · rintro (rfl | h)
      · exact Or.inl rfl
      · by_cases hw : u = w
        · exact Or.inl hw
        · exact Or.inr ⟨h, hw⟩

theorem dedupFirst_nodup (l : List α) : (dedupFirst l).Nodup := by
  induction l with
  | nil => simp [dedupFirst]
  | cons w ws ih =>
    refine List.nodup_cons.mpr ⟨?_, ih.filter _⟩
    intro hmem
    have h := (List.mem_filter.mp hmem).2
    simp at h

theorem firstIdx_lt_length {l : List α} {w : α} (h : w ∈ l) : firstIdx l w < l.length := by
  induction l with
  | nil => cases h
  | cons v vs ih =>
    simp only [firstIdx]
    split
    · simp
    · next hne =>
      have hw : w ∈ vs := by
        cases List.mem_cons.mp h with
        | inl h2 => exact absurd h2.symm hne
        | inr h2 => exact h2
      simpa [Nat.succ_lt_succ_iff] using ih hw

theorem getElem?_firstIdx {l : List α} {w : α} (h : w ∈ l) : l[firstIdx l w]? = some w := by
  induction l with
  | nil => cases h
  | cons v vs ih =>
    simp only [firstIdx]
    split
    · next heq => simp [heq]
    · next hne =>
      have hw : w ∈ vs := by
        cases List.mem_cons.mp h with
        | inl h2 => exact absurd h2.symm hne
        | inr h2 => exact h2
      simpa using ih hw

theorem firstIdx_of_getElem? {l : List α} (hnd : l.Nodup) {i : Nat} {w : α}
    (h : l[i]? = some w) : firstIdx l w = i := by
  induction l generalizing i with
  | nil => simp at h
  | cons v vs ih =>
    cases i with
    | zero =>
      simp only [List.getElem?_cons_zero, Option.some.injEq] at h
      simp [firstIdx, h]
    | succ j =>
      simp only [List.getElem?_cons_succ] at h
      have hne : ¬v = w := by
        intro hvw
        subst hvw
        exact (List.nodup_cons.mp hnd).1 (List.mem_iff_getElem?.mpr ⟨j, h⟩)
      simp [firstIdx, hne, ih (List.nodup_cons.mp hnd).2 h]

theorem rankLt_asymm {cnt f : α → Nat} {u v : α}
    (h1 : rankLt cnt f u v) (h2 : rankLt cnt f v u) : False := by
  rcases h1 with h1 | ⟨h1a, h1b⟩ <;> rcases h2 with h2 | ⟨h2a, h2b⟩ <;> omega

theorem pairwise_insertDesc {cnt f : α → Nat} {w : α} {l : List α}
    (hl : l.Pairwise (rankLt cnt f)) (hw : ∀ v ∈ l, f w < f v) :
    (insertDesc cnt w l).Pairwise (rankLt cnt f) := by
  induction l with
  | nil => simpa [insertDesc] using List.pairwise_singleton _ w
  | cons v vs ih =>
    rw [List.pairwise_cons] at hl
    obtain ⟨hv, hvs⟩ := hl
    simp only [insertDesc]
    split
    · next hle =>
      refine List.Pairwise.cons ?_ (List.Pairwise.cons hv hvs)
      intro u hu
      have hcnt : cnt u ≤ cnt w := by
        cases List.mem_cons.mp hu with
        | inl h => subst h; exact hle
        | inr h =>
          rcases hv u h with h2 | ⟨h2, _⟩ <;> omega
      rcases Nat.lt_or_ge (cnt u) (cnt w) with hlt | hge
      · exact Or.inl hlt
      · exact Or.inr ⟨by omega, hw u hu⟩
    · next hgt =>
      refine List.Pairwise.cons ?_ (ih hvs (fun x hx => hw x (List.mem_cons_of_mem v hx)))
      intro u hu
      rcases mem_insertDesc.mp hu with rfl | h
      · exact Or.inl (by omega)
      · exact hv u h

theorem pairwise_sortDesc {cnt f : α → Nat} {l : List α}
    (hl : l.Pairwise (fun u v => f u < f v)) :
    (sortDesc cnt l).Pairwise (rankLt cnt f) := by
  induction l with
  | nil => simp [sortDesc]
  | cons w ws ih =>
    rw [List.pairwise_cons] at hl
    simpa only [sortDesc] using pairwise_insertDesc (ih hl.2)
      (fun v hv => hl.1 v ((sortDesc_perm cnt ws).mem_iff.mp hv))

theorem dedupFirst_pairwise_firstIdx (l : List α) :
    (dedupFirst l).Pairwise (fun u v => firstIdx l u < firstIdx l v) := by
  induction l with
  | nil => simp [dedupFirst]
  | cons w ws ih =>
    simp only [dedupFirst]
    refine List.Pairwise.cons ?_ ?_
    · intro v hv
      have hvne : v ≠ w := by simpa using (List.mem_filter.mp hv).2
      simp [firstIdx, Ne.symm hvne]
    · have hfilter : ((dedupFirst ws).filter (fun v => decide (v ≠ w))).Pairwise
          (fun u v => firstIdx ws u < firstIdx ws v) :=
        List.Pairwise.sublist (List.filter_sublist (dedupFirst ws)) ih
      refine List.Pairwise.imp_of_mem ?_ hfilter
      intro a b ha hb hab
      have hane : a ≠ w := by simpa using (List.mem_filter.mp ha).2
      have hbne : b ≠ w := by simpa using (List.mem_filter.mp hb).2
      simp only [firstIdx, if_neg (Ne.symm hane), if_neg (Ne.symm hbne)]
      omega

theorem build_vocab_perm (ws : List α) : (build_vocab ws).Perm (dedupFirst ws) :=
  sortDesc_perm _ _

theorem mem_build_vocab {ws : List α} {u : α} : u ∈ build_vocab ws ↔ u ∈ ws := by
  rw [(build_vocab_perm ws).mem_iff, mem_dedupFirst]

theorem build_vocab_nodup (ws : List α) : (build_vocab ws).Nodup :=
  ((build_vocab_perm ws).nodup_iff).mpr (dedupFirst_nodup ws)

theorem build_vocab_pairwise (ws : List α) :
    (build_vocab ws).Pairwise (rankLt (fun w => ws.count w) (fun w => firstIdx ws w)) :=
  pairwise_sortDesc (dedupFirst_pairwise_firstIdx ws)

end VocabLemmas

section MainClaims

variable {α : Type} [DecidableEq α]

/-- C1: for every list of corpus tokens (markers included), `build_dataset`
returns a bijection between the distinct tokens and the contiguous index
range `[0, vocab_size)`, the two mappings being mutually inverse. -/
theorem build_dataset_bijection (ws : List α) :
    (∀ w ∈ ws, ∃ i, dictionary ws w = some i ∧ i < vocab_size ws ∧
      reverse_dictionary ws i = some w) ∧
    (∀ i, i < vocab_size ws → ∃ w ∈ ws, reverse_dictionary ws i = some w ∧
      dictionary ws w = some i) ∧
    (∀ w w' i, dictionary ws w = some i → dictionary ws w' = some i → w = w') := by
  refine ⟨?_, ?_, ?_⟩
  · intro w hw
    have hv : w ∈ build_vocab ws := mem_build_vocab.mpr hw
    exact ⟨firstIdx (build_vocab ws) w, by simp [dictionary, hv],
      firstIdx_lt_length hv, getElem?_firstIdx hv⟩
  · intro i hi
    obtain ⟨w, hget⟩ : ∃ w, (build_vocab ws)[i]? = some w :=
      ⟨_, List.getElem?_eq_getElem hi⟩
    have hmem : w ∈ build_vocab ws := List.mem_iff_getElem?.mpr ⟨i, hget⟩
    refine ⟨w, mem_build_vocab.mp hmem, hget, ?_⟩
    simp [dictionary, hmem, firstIdx_of_getElem? (build_vocab_nodup ws) hget]
  · intro w w' i hw hw'
    rw [dictionary] at hw hw'
    split at hw
    · next hmem =>
      split at hw'
      · next hmem' =>
        have hi : firstIdx (build_vocab ws) w = i := Option.some_inj.mp hw
        have hi' : firstIdx (build_vocab ws) w' = i := Option.some_inj.mp hw'
        have h1 : (build_vocab ws)[i]? = some w := hi ▸ getElem?_firstIdx hmem
        have h2 : (build_vocab ws)[i]? = some w' := hi' ▸ getElem?_firstIdx hmem'
        exact Option.some_inj.mp (h1.symm.trans h2)
      · exact absurd hw' (by simp)
    · exact absurd hw (by simp)

/-- C1 witness: on the concrete corpus `["a","a","b"]`, the token `"b"`
receives an index that decodes back to `"b"`. -/
theorem build_dataset_bijection_witness :
    ∃ i, dictionary ["a", "a", "b"] "b" = some i ∧ i < vocab_size ["a", "a", "b"] ∧
      reverse_dictionary ["a", "a", "b"] i = some "b" :=
  (build_dataset_bijection ["a", "a", "b"]).1 "b" (by decide)

/-- C2: `build_dataset` assigns indices in descending-frequency order, ties
broken by first occurrence: whenever `u` has a larger count than `v`, or an
equal count and an earlier first occurrence, `u`'s index is smaller. -/
theorem build_dataset_freq_order (ws : List α) (u v : α) (hu : u ∈ ws) (hv : v ∈ ws)
    (h : ws.count v < ws.count u ∨
      (ws.count u = ws.count v ∧ firstIdx ws u < firstIdx ws v)) :
    ∃ i j, dictionary ws u = some i ∧ dictionary ws v = some j ∧ i < j := by
  have hR : rankLt (fun w => ws.count w) (fun w => firstIdx ws w) u v := h
  have hu' : u ∈ build_vocab ws := mem_build_vocab.mpr hu
  have hv' : v ∈ build_vocab ws := mem_build_vocab.mpr hv
  refine ⟨firstIdx (build_vocab ws) u, firstIdx (build_vocab ws) v,
    by simp [dictionary, hu'], by simp [dictionary, hv'], ?_⟩
  have hiu := firstIdx_lt_length hu'
  have hiv := firstIdx_lt_length hv'
  have hgu := getElem?_firstIdx hu'
  have hgv := getElem?_firstIdx hv'
  obtain ⟨_, hgu'⟩ := List.getElem?_eq_some.mp hgu
  obtain ⟨_, hgv'⟩ := List.getElem?_eq_some.mp hgv
  have hpw := (List.pairwise_iff_getElem.mp (build_vocab_pairwise ws))
  rcases Nat.lt_trichotomy (firstIdx (build_vocab ws) u) (firstIdx (build_vocab ws) v) with
    hlt | heq | hgt
  · exact hlt
  · exfalso
    have huv : u = v := by
      rw [heq] at hgu
      exact Option.some_inj.mp (hgu.symm.trans hgv)
    subst huv
    exact rankLt_asymm hR hR
  · exfalso
    have hS := hpw _ _ hiv hiu hgt
    rw [hgv', hgu'] at hS
    exact rankLt_asymm hR hS

/-- C2 witness: on the tokens `["a","a","b"]`, `"a"` receives a strictly
lower index than `"b"`. -/
theorem build_dataset_freq_order_witness :
    ∃ i j, dictionary ["a", "a", "b"] "a" = some i ∧
      dictionary ["a", "a", "b"] "b" = some j ∧ i < j :=
  build_dataset_freq_order ["a", "a", "b"] "a" "b" (by decide) (by decide) (by decide)

end MainClaims

section GenerationLemmas

theorem pickRand_spec {start_key end_key r : Nat} {draws : List Nat}
    (h : pickRand start_key end_key draws = some r) : r ≠ start_key ∧ r ≠ end_key := by
  induction draws with
  | nil => simp [pickRand] at h
  | cons d ds ih =>
    simp only [pickRand] at h
    split at h
    · exact ih h
    · next hcond =>
      push_neg at hcond
      obtain rfl : d = r := Option.some_inj.mp h
      exact hcond

theorem genLoop_length (predict : List Nat → Nat) (ek : Nat) :
    ∀ (fuel i : Nat) (keys : List Nat),
      keys.length ≤ (genLoop predict ek i fuel keys).length ∧
      (genLoop predict ek i fuel keys).length ≤ keys.length + fuel := by
  intro fuel
  induction fuel with
  | zero => intro i keys; simp [genLoop]
  | succ n ih =>
    intro i keys
    simp only [genLoop]
    split
    · exact ⟨Nat.le_refl _, by omega⟩
    · have h := ih (i + 1) (keys ++ [predict (keys.drop i)])
      simp only [List.length_append, List.length_cons, List.length_nil] at h
      omega

theorem genLoop_take (predict : List Nat → Nat) (ek : Nat) :
    ∀ (fuel i : Nat) (keys : List Nat),
      (genLoop predict ek i fuel keys).take keys.length = keys := by
  intro fuel
  induction fuel with
  | zero => intro i keys; simp [genLoop]
  | succ n ih =>
    intro i keys
    simp only [genLoop]
    split
    · exact List.take_length keys
    · have h := ih (i + 1) (keys ++ [predict (keys.drop i)])
      simp only [List.length_append, List.length_cons, List.length_nil, Nat.zero_add] at h
      calc (genLoop predict ek (i + 1) n (keys ++ [predict (keys.drop i)])).take keys.length
          = ((genLoop predict ek (i + 1) n
              (keys ++ [predict (keys.drop i)])).take (keys.length + 1)).take keys.length := by
            rw [List.take_take]
            congr 1
            omega
        _ = (keys ++ [predict (keys.drop i)]).take keys.length := by rw [h]
        _ = keys := List.take_left keys _

theorem genLoop_no_end (predict : List Nat → Nat) (ek : Nat) :
    ∀ (fuel i : Nat) (keys : List Nat) (k : Nat), keys.length ≤ k →
      (genLoop predict ek i fuel keys)[k]? ≠ some ek := by
  intro fuel
  induction fuel with
  | zero =>
    intro i keys k hk
    simp only [genLoop]
    rw [List.getElem?_eq_none hk]
    simp
  | succ n ih =>
    intro i keys k hk
    simp only [genLoop]
    split
    · rw [List.getElem?_eq_none hk]
      simp
    · next hne =>
      rcases Nat.lt_or_ge k (keys.length + 1) with hlt | hge
      · have hk1 : k = keys.length := by omega
        subst hk1
        have htake := genLoop_take predict ek n (i + 1) (keys ++ [predict (keys.drop i)])
        simp only [List.length_append, List.length_cons, List.length_nil] at htake
        have e2 : ((genLoop predict ek (i + 1) n
            (keys ++ [predict (keys.drop i)])).take (keys.length + 1))[keys.length]? =
            (genLoop predict ek (i + 1) n (keys ++ [predict (keys.drop i)]))[keys.length]? := by
          rw [List.getElem?_take]
          simp
        rw [htake, List.getElem?_concat_length] at e2
        rw [← e2]
        intro hcon
        exact hne (Option.some_inj.mp hcon)
      · exact ih (i + 1) (keys ++ [predict (keys.drop i)]) k
          (by simpa using hge)

theorem genLoop_early_stop (predict : List Nat → Nat) (ek : Nat) :
    ∀ (fuel i : Nat) (keys : List Nat),
      (genLoop predict ek i fuel keys).length < keys.length + fuel →
      predict ((genLoop predict ek i fuel keys).drop
        (i + ((genLoop predict ek i fuel keys).length - keys.length))) = ek := by
  intro fuel
  induction fuel with
  | zero =>
    intro i keys h
    simp only [genLoop] at h
    omega
  | succ n ih =>
    intro i keys h
    simp only [genLoop] at h ⊢
    by_cases hp : predict (keys.drop i) = ek
    · rw [if_pos hp]
      simpa using hp
    · rw [if_neg hp] at h ⊢
      have hlen := (genLoop_length predict ek n (i + 1) (keys ++ [predict (keys.drop i)])).1
      simp only [List.length_append, List.length_cons, List.length_nil] at hlen
      have h2 := ih (i + 1) (keys ++ [predict (keys.drop i)])
        (by simpa using by omega)
      have harg : (i + 1) + ((genLoop predict ek (i + 1) n
          (keys ++ [predict (keys.drop i)])).length - (keys ++ [predict (keys.drop i)]).length) =
          i + ((genLoop predict ek (i + 1) n
          (keys ++ [predict (keys.drop i)])).length - keys.length) := by
        simp only [List.length_append, List.length_cons, List.length_nil]
        omega
      rw [harg] at h2
      exact h2

theorem genLoop_full (predict : List Nat → Nat) (ek fuel i : Nat) (keys : List Nat)
    (hnever : ∀ w, predict w ≠ ek) :
    (genLoop predict ek i fuel keys).length = keys.length + fuel := by
  have h1 := (genLoop_length predict ek fuel i keys).2
  rcases eq_or_lt_of_le h1 with he | hl
  · exact he
  · exact absurd (genLoop_early_stop predict ek fuel i keys hl) (hnever _)

end GenerationLemmas

section GenerationClaims

/-- C5: the decoding loop always terminates within `sentence_length` appended
tokens: the seed is preserved as the front of the output, at most
`sentence_length` tokens are appended, an appended token is never the end
key, an early stop happens exactly on a predicted end key, and when the end
key is never predicted the loop runs to the maximum length. -/
theorem generation_terminates (predict : List Nat → Nat) (ek slen : Nat) (keys : List Nat) :
    keys.length ≤ (genLoop predict ek 0 slen keys).length ∧
    (genLoop predict ek 0 slen keys).length ≤ keys.length + slen ∧
    (genLoop predict ek 0 slen keys).take keys.length = keys ∧
    (∀ k, keys.length ≤ k → (genLoop predict ek 0 slen keys)[k]? ≠ some ek) ∧
    ((genLoop predict ek 0 slen keys).length < keys.length + slen →
      predict ((genLoop predict ek 0 slen keys).drop
        ((genLoop predict ek 0 slen keys).length - keys.length)) = ek) ∧
    ((∀ w, predict w ≠ ek) → (genLoop predict ek 0 slen keys).length = keys.length + slen) := by
  refine ⟨(genLoop_length predict ek slen 0 keys).1, (genLoop_length predict ek slen 0 keys).2,
    genLoop_take predict ek slen 0 keys,
    fun k hk => genLoop_no_end predict ek slen 0 keys k hk, ?_, ?_⟩
  · intro h
    have h2 := genLoop_early_stop predict ek slen 0 keys h
    simpa using h2
  · intro hnever
    exact genLoop_full predict ek slen 0 keys hnever

/-- C5 witness: with a network that always predicts token 5 and end key 5,
decoding from the seed `[0, 0, 1]` appends nothing, and position 7 of the
output never holds the end key. -/
theorem generation_terminates_witness :
    (genLoop (fun _ => 5) 5 0 3 [0, 0, 1])[7]? ≠ some 5 :=
  (generation_terminates (fun _ => 5) 5 3 [0, 0, 1]).2.2.2.1 7 (by decide)

/-- C6 counterexample: on the vocabulary built from
`[START_TOKEN, END_TOKEN, UNKNOWN_TOKEN]` the unknown marker has index 2,
and the acceptance loop of `generate_sentence` accepts the draw 2: the seeded
random token can be the unknown marker, contrary to the claim. -/
theorem seed_excludes_unknown_cex :
    dictionary [START_TOKEN, END_TOKEN, UNKNOWN_TOKEN] START_TOKEN = some 0 ∧
    dictionary [START_TOKEN, END_TOKEN, UNKNOWN_TOKEN] END_TOKEN = some 1 ∧
    dictionary [START_TOKEN, END_TOKEN, UNKNOWN_TOKEN] UNKNOWN_TOKEN = some 2 ∧
    pickRand 0 1 [2] = some 2 ∧
    seedSymbols 0 2 = [0, 0, 2] := by decide

/-- C6 amended: the decoding window is seeded with exactly `N_INPUT − 1`
start-marker indices followed by one randomly chosen token index that is
neither the start-marker index nor the end-marker index (the unknown marker
is not excluded). -/
theorem seed_shape (start_key end_key r : Nat) (draws : List Nat)
    (h : pickRand start_key end_key draws = some r) :
    seedSymbols start_key r = List.replicate (N_INPUT - 1) start_key ++ [r] ∧
    r ≠ start_key ∧ r ≠ end_key := by
  refine ⟨?_, pickRand_spec h⟩
  simp [seedSymbols, List.map_const]

/-- C6 amended witness: drawing `[0, 1, 5]` with start key 0 and end key 1
accepts 5 and seeds the window `[0, 0, 5]`. -/
theorem seed_shape_witness :
    seedSymbols 0 5 = List.replicate (N_INPUT - 1) 0 ++ [5] ∧ 5 ≠ 0 ∧ 5 ≠ 1 :=
  seed_shape 0 1 5 [0, 1, 5] (by decide)

/-- C10: the end key never occurs among the decoded indices of a generation
run (the seed excludes it and the loop breaks before appending it), and hence
the rendered word list never contains the end token. -/
theorem no_end_in_generation (predict : List Nat → Nat)
    (start_key end_key slen : Nat) (draws : List Nat) (out : List Nat)
    (rev : Nat → Option PyStr)
    (hsk : start_key ≠ end_key)
    (hout : generate_indices predict start_key end_key slen draws = some out)
    (hrev : ∀ k, rev k = some END_TOKEN → k = end_key) :
    end_key ∉ out ∧ END_TOKEN ∉ convertWords rev start_key out := by
  rw [generate_indices, Option.map_eq_some'] at hout
  obtain ⟨r, hr, hgen⟩ := hout
  obtain ⟨hrs, hre⟩ := pickRand_spec hr
  have hseed : end_key ∉ seedSymbols start_key r := by
    intro hmem
    rw [seedSymbols] at hmem
    rcases List.mem_append.mp hmem with hmem | hmem
    · obtain ⟨_, _, he⟩ := List.mem_map.mp hmem
      exact hsk he
    · rw [List.mem_singleton] at hmem
      exact hre hmem.symm
  have hnot : end_key ∉ out := by
    intro hmem
    obtain ⟨n, hn⟩ := List.mem_iff_getElem?.mp hmem
    rcases Nat.lt_or_ge n (seedSymbols start_key r).length with hlt | hge
    · have htake := genLoop_take predict end_key slen 0 (seedSymbols start_key r)
      rw [hgen] at htake
      have e1 : (out.take (seedSymbols start_key r).length)[n]? = out[n]? := by
        rw [List.getElem?_take, if_pos hlt]
      rw [htake] at e1
      exact hseed (List.mem_iff_getElem?.mpr ⟨n, e1.trans hn⟩)
    · have hno := genLoop_no_end predict end_key slen 0 (seedSymbols start_key r) n hge
      rw [hgen] at hno
      exact hno hn
  refine ⟨hnot, ?_⟩
  intro hmem
  obtain ⟨k, hk, hrevk⟩ := List.mem_filterMap.mp hmem
  exact hnot (hrev k hrevk ▸ List.mem_of_mem_filter hk)

/-- C10 witness: with start key 0, end key 1, a network that always predicts
3 and the single draw 2, the decoded indices are `[0, 0, 2, 3, 3]`: the end
key 1 never appears and the rendered words avoid the end token. -/
theorem no_end_in_generation_witness :
    (1 : Nat) ∉ ([0, 0, 2, 3, 3] : List Nat) ∧
    END_TOKEN ∉ convertWords
      (fun k => if k = 1 then some END_TOKEN else some START_TOKEN) 0 [0, 0, 2, 3, 3] :=
  no_end_in_generation (fun _ => 3) 0 1 2 [2] [0, 0, 2, 3, 3]
    (fun k => if k = 1 then some END_TOKEN else some START_TOKEN)
    (by decide) (by decide)
    (by
      intro k hk
      by_cases h : k = 1
      · exact h
      · exfalso
        have hk2 : (if k = 1 then some END_TOKEN else some START_TOKEN) = some END_TOKEN := hk
        rw [if_neg h] at hk2
        exact absurd hk2 (by decide))

end GenerationClaims

section TrainingLemmas

theorem minLe_refl (m : Option ℚ) : minLe m m := by
  cases m <;> simp [minLe]

theorem minLe_trans {a b c : Option ℚ} (h1 : minLe a b) (h2 : minLe b c) : minLe a c := by
  cases a <;> cases b <;> cases c <;> simp_all [minLe]
  exact le_trans h1 h2

theorem minLe_of_improves {m : Option ℚ} {c : ℚ} (h : improvesB m c = true) :
    minLe (some c) m := by
  cases m with
  | none => simp [minLe]
  | some x =>
    simp only [improvesB, decide_eq_true_eq] at h
    simpa [minLe] using le_of_lt h

theorem some_ne_of_improves {m : Option ℚ} {c : ℚ} (h : improvesB m c = true) :
    some c ≠ m := by
  cases m with
  | none => simp
  | some x =>
    simp only [improvesB, decide_eq_true_eq] at h
    simpa using ne_of_lt h

theorem train_step_minLe (offset : Nat) (loss : ℚ) (st : TrainState) :
    minLe (train_step offset loss st).1.min_loss st.min_loss := by
  by_cases hb : BATCH_SIZE ≤ st.batch_counter + 1
  · by_cases hi : improvesB st.min_loss ((st.total_loss + loss) / (BATCH_SIZE : ℚ)) = true
    · simpa [train_step, hb, hi] using minLe_of_improves hi
    · by_cases ho : offset % GENERATE_INCREMENT = GENERATE_INCREMENT - 1 <;>
        simp [train_step, hb, hi, ho, minLe_refl]
  · simp [train_step, hb, minLe_refl]

theorem train_run_minLe : ∀ (steps : List (Nat × ℚ)) (st : TrainState),
    minLe (train_run steps st).min_loss st.min_loss := by
  intro steps
  induction steps with
  | nil => intro st; simp [train_run, minLe_refl]
  | cons p ps ih =>
    intro st
    have h1 : train_run (p :: ps) st = train_run ps (train_step p.1 p.2 st).1 := rfl
    rw [h1]
    exact minLe_trans (ih _) (train_step_minLe p.1 p.2 st)

end TrainingLemmas

section TrainingClaims

/-- C4: at a batch boundary a checkpoint to the model path is saved exactly
when the freshly computed batch-mean loss strictly beats the running minimum;
the running minimum never increases over any run, and it changes (to that
mean) exactly when such a checkpoint is saved. -/
theorem checkpoint_gate (offset : Nat) (loss : ℚ) (st : TrainState) :
    ((train_step offset loss st).2 = some SaveEvent.model ↔
      (BATCH_SIZE ≤ st.batch_counter + 1 ∧
        improvesB st.min_loss ((st.total_loss + loss) / (BATCH_SIZE : ℚ)) = true)) ∧
    minLe (train_step offset loss st).1.min_loss st.min_loss ∧
    ((train_step offset loss st).1.min_loss ≠ st.min_loss ↔
      (train_step offset loss st).2 = some SaveEvent.model) ∧
    ((train_step offset loss st).2 = some SaveEvent.model →
      (train_step offset loss st).1.min_loss =
        some ((st.total_loss + loss) / (BATCH_SIZE : ℚ))) ∧
    (∀ steps : List (Nat × ℚ), minLe (train_run steps st).min_loss st.min_loss) := by
  refine ⟨?_, train_step_minLe offset loss st, ?_, ?_, fun steps => train_run_minLe steps st⟩
  all_goals
    by_cases hb : BATCH_SIZE ≤ st.batch_counter + 1
  · by_cases hi : improvesB st.min_loss ((st.total_loss + loss) / (BATCH_SIZE : ℚ)) = true
    · simp [train_step, hb, hi]
    · by_cases ho : offset % GENERATE_INCREMENT = GENERATE_INCREMENT - 1 <;>
        simp [train_step, hb, hi, ho]
  · simp [train_step, hb]
  · by_cases hi : improvesB st.min_loss ((st.total_loss + loss) / (BATCH_SIZE : ℚ)) = true
    · simpa [train_step, hb, hi] using some_ne_of_improves hi
    · by_cases ho : offset % GENERATE_INCREMENT = GENERATE_INCREMENT - 1 <;>
        simp [train_step, hb, hi, ho]
  · simp [train_step, hb]
  · by_cases hi : improvesB st.min_loss ((st.total_loss + loss) / (BATCH_SIZE : ℚ)) = true
    · simp [train_step, hb, hi]
    · by_cases ho : offset % GENERATE_INCREMENT = GENERATE_INCREMENT - 1 <;>
        simp [train_step, hb, hi, ho]
  · simp [train_step, hb]

/-- C4 witness: from a fresh state (counter 999, running minimum infinite), a
step of loss 10 crosses the batch boundary, saves to the model path, and sets
the running minimum to the batch mean. -/
theorem checkpoint_gate_witness :
    (train_step 0 10 ⟨999, 0, none⟩).1.min_loss =
      some (((0 : ℚ) + 10) / (BATCH_SIZE : ℚ)) :=
  (checkpoint_gate 0 10 ⟨999, 0, none⟩).2.2.2.1 (by decide)

end TrainingClaims

section EmbeddingLemmas

variable {α β : Type} [DecidableEq α]

theorem index_embeddings_from_map_fst (emb : List (α × β)) (unk : β) :
    ∀ (l : List α) (i : Nat),
      (index_embeddings_from emb unk i l).map Prod.fst = List.range' i l.length := by
  intro l
  induction l with
  | nil => intro i; simp [index_embeddings_from]
  | cons w ws ih => intro i; simp [index_embeddings_from, List.range', ih]

theorem alookup_index_embeddings_from (emb : List (α × β)) (unk : β) :
    ∀ (l : List α) (i j : Nat),
      alookup (index_embeddings_from emb unk i l) (i + j) =
        (l[j]?).map (fun w => (alookup emb w).getD unk) := by
  intro l
  induction l with
  | nil => intro i j; simp [index_embeddings_from, alookup]
  | cons w ws ih =>
    intro i j
    cases j with
    | zero => simp [index_embeddings_from, alookup]
    | succ j' =>
      have hne : ¬i = i + (j' + 1) := by omega
      have harg : i + (j' + 1) = (i + 1) + j' := by omega
      simp only [index_embeddings_from, alookup, if_neg hne, List.getElem?_cons_succ]
      rw [harg, ih (i + 1) j']

end EmbeddingLemmas

section EmbeddingClaims

variable {β : Type} [DecidableEq β]

/-- C3: when embeddings are enabled (and the unknown token has a pretrained
vector), the constructed index-to-vector mapping has exactly the vocabulary
indices `[0, vocab_size)` as keys, every index is mapped, and a vocabulary
word absent from the pretrained table is assigned exactly the unknown
token's vector. -/
theorem embedding_coverage (emb : List (PyStr × β)) (vocabL : List PyStr) (unk : β)
    (ie : List (Nat × β))
    (hunk : alookup emb UNKNOWN_TOKEN = some unk)
    (hie : build_index_embeddings emb vocabL = some ie) :
    ie.map Prod.fst = List.range vocabL.length ∧
    (∀ i, i < vocabL.length → ∃ v, alookup ie i = some v) ∧
    (∀ i w, vocabL[i]? = some w → alookup emb w = none → alookup ie i = some unk) := by
  rw [build_index_embeddings, hunk, Option.map_some'] at hie
  obtain rfl : index_embeddings_from emb unk 0 vocabL = ie := Option.some_inj.mp hie
  refine ⟨?_, ?_, ?_⟩
  · rw [index_embeddings_from_map_fst, List.range_eq_range']
  · intro i hi
    have h := alookup_index_embeddings_from emb unk vocabL 0 i
    rw [Nat.zero_add] at h
    rw [h, List.getElem?_eq_getElem hi, Option.map_some']
    exact ⟨_, rfl⟩
  · intro i w hw hnone
    have h := alookup_index_embeddings_from emb unk vocabL 0 i
    rw [Nat.zero_add] at h
    rw [h, hw, Option.map_some', hnone]
    rfl

/-- C3 witness: with a table holding only the unknown vector `[1]` and the
one-word vocabulary `["a"]`, the out-of-table word `"a"` is assigned the
unknown vector. -/
theorem embedding_coverage_witness :
    alookup [((0 : Nat), ([1] : List ℚ))] 0 = some [1] :=
  (embedding_coverage [(UNKNOWN_TOKEN, ([1] : List ℚ))] (build_vocab [['a']]) [1]
    [(0, [1])] (by decide) (by decide)).2.2 0 ['a'] (by decide) (by decide)

/-- C7: in embedding mode the script computes
`np.argmin(np.linalg.norm(embeddings_list - pred_output, axis=0))` — an
argmin over per-coordinate column norms (`axis=0`), not over per-row
Euclidean distances — and feeds that coordinate index into
`embedding_order`. On the table built from vectors `[0,10]` and `[5,0]` with
predicted vector `[0,0]`, the code selects vocabulary index 0 while the
nearest-row rule of the claim selects vocabulary index 1. -/
theorem embedding_nearest_divergence :
    build_embeddings_list
        [(UNKNOWN_TOKEN, ([9, 9] : List ℚ)), (['a'], [0, 10]), (['b'], [5, 0])]
        [['a'], ['a'], ['b']] =
      ([[0, 10], [5, 0]], [(0, 0), (1, 1)]) ∧
    pred_index_embedding [[0, 10], [5, 0]] [(0, 0), (1, 1)] [0, 0] = some 0 ∧
    nearest_row_index [[0, 10], [5, 0]] [(0, 0), (1, 1)] [0, 0] = some 1 ∧
    (0 : Nat) ≠ 1 := by
  have hc : colNormsSq [[0, 10], [5, 0]] [0, 0] = [25, 100] := by
    simp [colNormsSq, List.range_succ]
    norm_num
  have hn : ([[0, 10], [5, 0]] : List (List ℚ)).map (fun row => distSq row [0, 0]) =
      [100, 25] := by
    simp [distSq]
    norm_num
  refine ⟨by decide, ?_, ?_, by decide⟩
  · rw [pred_index_embedding, hc]
    rfl
  · rw [nearest_row_index, hn]
    rfl

end EmbeddingClaims

section CorpusLemmas

theorem splitSp_ne_nil : ∀ cs : List Char, splitSp cs ≠ [] := by
  intro cs
  induction cs with
  | nil => simp [splitSp]
  | cons c cs' ih =>
    by_cases hc : c = ' '
    · subst hc
      simp [splitSp]
    · cases h : splitSp cs' with
      | nil => exact absurd h ih
      | cons t ts => simp [splitSp, hc, h]

theorem splitSp_append_space (cs : List Char) :
    splitSp (cs ++ [' ']) = splitSp cs ++ [[]] := by
  induction cs with
  | nil => rfl
  | cons c cs' ih =>
    by_cases hc : c = ' '
    · subst hc
      simp [splitSp, ih]
    · cases h : splitSp cs' with
      | nil => exact absurd h (splitSp_ne_nil cs')
      | cons t ts => simp [splitSp, hc, ih, h]

theorem punch_fold_ends_space : ∀ (ls : List PyStr) (acc : PyStr),
    ((∃ l ∈ ls, l ≠ []) ∨ (∃ p, acc = p ++ [' '])) →
    ∃ p, ls.foldl punch_step acc = p ++ [' '] := by
  intro ls
  induction ls with
  | nil =>
    intro acc h
    rcases h with ⟨l, hl, _⟩ | h
    · cases hl
    · simpa using h
  | cons l ls' ih =>
    intro acc h
    rw [List.foldl_cons]
    by_cases hl : l = []
    · refine ih _ ?_
      rcases h with ⟨l', hl', hne⟩ | hp
      · rcases List.mem_cons.mp hl' with rfl | hl'
        · exact absurd hl hne
        · exact Or.inl ⟨l', hl', hne⟩
      · rw [punch_step, if_pos hl]
        exact Or.inr hp
    · refine ih _ (Or.inr ?_)
      rw [punch_step, if_neg hl]
      exact ⟨acc ++ start_tokens_str ++ l ++ [' '] ++ END_TOKEN, by
        simp [List.append_assoc]⟩

theorem punch_fold_blank : ∀ (ls : List PyStr) (acc : PyStr),
    (∀ l ∈ ls, l = []) → ls.foldl punch_step acc = acc := by
  intro ls
  induction ls with
  | nil => intro acc _; rfl
  | cons l ls' ih =>
    intro acc h
    rw [List.foldl_cons, punch_step, if_pos (h l (List.mem_cons_self l ls'))]
    exact ih acc (fun x hx => h x (List.mem_cons_of_mem l hx))

end CorpusLemmas

section CorpusClaims

/-- C8 counterexample: the pipeline applied to a corpus of blank lines
yields the one-entry vocabulary whose sole entry is the empty string, which
is none of the three synthetic marker tokens. -/
theorem empty_corpus_marker_cex :
    build_vocab (corpus_words [[], []]) = [[]] ∧
    ([] : PyStr) ≠ START_TOKEN ∧ ([] : PyStr) ≠ END_TOKEN ∧
    ([] : PyStr) ≠ UNKNOWN_TOKEN := by
  decide

/-- C8 amended: for a corpus file containing no non-blank lines, corpus
reading plus `build_dataset` yields a vocabulary containing exactly one
entry, namely the empty-string token produced by splitting the empty corpus
text on spaces (not a synthetic marker). -/
theorem empty_corpus_vocab (lines : List PyStr) (h : ∀ l ∈ lines, l = []) :
    build_vocab (corpus_words lines) = [[]] := by
  have hp : punch_lines lines = [] := punch_fold_blank lines [] h
  rw [corpus_words, hp]
  decide

/-- C8 amended witness: two blank lines yield the vocabulary `[""]`. -/
theorem empty_corpus_vocab_witness :
    build_vocab (corpus_words [[], []]) = [([] : PyStr)] :=
  empty_corpus_vocab [[], []] (by decide)

/-- C9: for every corpus with at least one non-blank line, the flattened
token list ends with the empty-string token, and that empty string receives
its own vocabulary index. -/
theorem trailing_empty_token (lines : List PyStr) (h : ∃ l ∈ lines, l ≠ []) :
    (corpus_words lines).getLast? = some [] ∧
    ∃ i, dictionary (corpus_words lines) [] = some i := by
  obtain ⟨p, hp⟩ := punch_fold_ends_space lines [] (Or.inl h)
  have hw : corpus_words lines = splitSp p ++ [[]] := by
    rw [corpus_words, punch_lines, hp]
    exact splitSp_append_space p
  constructor
  · rw [hw]
    exact List.getLast?_concat _
  · have hmem : ([] : PyStr) ∈ corpus_words lines := by
      rw [hw]
      simp
    have hv := mem_build_vocab.mpr hmem
    exact ⟨firstIdx (build_vocab (corpus_words lines)) [], by simp [dictionary, hv]⟩

/-- C9 witness: the one-line corpus `["hi"]` produces a token list ending in
the empty string, which is in the vocabulary. -/
theorem trailing_empty_token_witness :
    (corpus_words [['h', 'i']]).getLast? = some [] ∧
    ∃ i, dictionary (corpus_words [['h', 'i']]) [] = some i :=
  trailing_empty_token [['h', 'i']] ⟨['h', 'i'], by decide, by decide⟩

end CorpusClaims

end HumorLstm
